import Mathlib

/-!
Verification of the RISC-V64 stub/interpreter code-generation layer.

Shallow embedding of the generated code's behaviour:
* `Checkcast` models the checked (subtype-checking) array copy stub
  (`generate_checkcast_copy`, stubGenerator_riscv64.cpp).
* `ArrayCopy` models `copy_memory` and the conjoint/disjoint copy stubs.
* `CallConv` models `SharedRuntime::java_calling_convention` and
  `SharedRuntime::c_calling_convention` (sharedRuntime_riscv64.cpp).
* `ObjMove` models `object_move` (sharedRuntime_riscv64.cpp).
* `Interp` models `generate_stack_overflow_check` and the emission order of
  `generate_normal_entry` (templateInterpreterGenerator_riscv64.cpp).
* `G1Post` models `G1BarrierSetAssembler::g1_write_barrier_post`
  (g1BarrierSetAssembler_riscv64.cpp).
* `Patching` models `NativeCall::set_destination` (nativeInst_riscv64.hpp).

The file is organised as definitions first, theorems second.
-/

namespace Checkcast

abbrev Oop := Option Nat

/-- The per-element check of the checkcast loop, as the generated code performs
it: a null element is stored without any type check (`beqz(copied_oop,
L_store_element)`); a non-null element is stored only when the dynamic subtype
check of its klass against the destination element klass succeeds
(`generate_type_check`).  `sub k` abstracts the outcome of
`check_klass_subtype_fast_path`/`slow_path` for klass `k` against the
`ckoff`/`ckval` pair the caller passed. -/
def elemPasses (sub : Nat → Bool) : Oop → Bool
  | none => true
  | some k => sub k

/-- The rotated element loop of `generate_checkcast_copy`
(`L_load_element`/`L_store_element`): walk the source from low to high; store
each passing element into the next destination position; stop at the first
failing element.  Returns the destination contents, the number of elements
stored (register `count_save - count` at exit), and whether the whole source
was copied. -/
def ccRun (sub : Nat → Bool) : List Oop → List Oop → List Oop × Nat × Bool
  | [], dst => (dst, 0, true)
  | e :: rest, dst =>
    if elemPasses sub e then
      let r := ccRun sub rest dst.tail
      (e :: r.1, r.2.1 + 1, r.2.2)
    else (dst, 0, false)

/-- `generate_checkcast_copy`: an empty array is handled before anything else
(`beqz(count, L_done)`), returning 0; otherwise the element loop runs and the
stub returns 0 on success or `-1 ^^^ K = -(K+1)` on failure, where `K` is the
partial transfer count (`sub(count, count_save, count); xori(count, count,
-1)`). -/
def checkcastCopy (sub : Nat → Bool) (src dst : List Oop) : List Oop × Int :=
  if src.isEmpty then (dst, 0)
  else
    let r := ccRun sub src dst
    (r.1, if r.2.2 then 0 else -((r.2.1 : Int) + 1))

/-- Events of the checkcast stub that touch memory or the GC barrier.  The
barrier prologue (`arraycopy_prologue`) is emitted after the empty-array test;
the epilogue (`arraycopy_epilogue`) runs on both the success path and the
failure path. -/
inductive CcEvent
  | barrierPrologue
  | loadElem
  | storeElem
  | barrierEpilogue
deriving DecidableEq

/-- Trace of loads/stores of the element loop. -/
def ccRunTrace (sub : Nat → Bool) : List Oop → List CcEvent
  | [] => []
  | e :: rest =>
    if elemPasses sub e then CcEvent.loadElem :: CcEvent.storeElem :: ccRunTrace sub rest
    else [CcEvent.loadElem]

/-- Event trace of `generate_checkcast_copy`: for a zero count the stub
branches straight to `L_done` (no barrier prologue, no element access, no
epilogue); otherwise the prologue, the loop accesses, and the epilogue run. -/
def checkcastTrace (sub : Nat → Bool) (src : List Oop) : List CcEvent :=
  if src.isEmpty then []
  else CcEvent.barrierPrologue :: (ccRunTrace sub src ++ [CcEvent.barrierEpilogue])

end Checkcast

namespace ArrayCopy

/-- The element granularity of `copy_memory`, exactly the four cases of its
`switch (granularity)` (`lbu`/`sb`, `lhu`/`sh`, `lwu`/`sw`, `ld`/`sd`). -/
inductive Gran
  | b1
  | b2
  | b4
  | b8
deriving DecidableEq

/-- Element size in bytes. -/
def Gran.val : Gran → Nat
  | .b1 => 1
  | .b2 => 2
  | .b4 => 4
  | .b8 => 8

/-- One primitive copy of the generated code: read `w` bytes starting at
`src`, then write them to `w` bytes starting at `dst`.  The load of the whole
block precedes the store of the whole block, which is exactly how each
element/word copy of `copy_memory` behaves (load into a temp register, then
store). -/
structure Move where
  src : Nat
  dst : Nat
  w : Nat
deriving DecidableEq, Repr

/-- Byte-addressed memory. -/
def Mem := Nat → Nat

/-- Semantics of one `Move`: all `w` source bytes are read from the memory as
it is before the move, then written at the destination. -/
def blockMove (m : Mem) (src dst w : Nat) : Mem :=
  fun a => if dst ≤ a ∧ a < dst + w then m (src + (a - dst)) else m a

/-- Replay a move list left to right. -/
def applyMoves (l : List Move) (m : Mem) : Mem :=
  l.foldl (fun acc mv => blockMove acc mv.src mv.dst mv.w) m

/-- The memory produced by the oracle copy: bytes `[d+lo, d+hi)` hold the
*original* bytes `[s+lo, s+hi)`; everything else is unchanged.  `copyRange m s
d 0 n` is the naive element-by-element copy evaluated on a pristine source. -/
def copyRange (m : Mem) (s d lo hi : Nat) : Mem :=
  fun a => if d + lo ≤ a ∧ a < d + hi then m (s + (a - d)) else m a

/-- The `copy_small` do-while loop of `copy_memory`, forward direction: copy
one element, advance, subtract the granularity from `cnt`, loop while the
result is positive (`bgtz(cnt, copy_small)`). -/
def movesSmallF (g : Gran) (src dst cnt : Nat) : List Move :=
  let mv : Move := ⟨src, dst, g.val⟩
  if cnt - g.val = 0 then [mv]
  else mv :: movesSmallF g (src + g.val) (dst + g.val) (cnt - g.val)
termination_by cnt
decreasing_by
  cases g <;> simp [Gran.val] at * <;> omega

/-- The `copy8` word loop of `copy_memory`, forward direction: copy one
machine word, advance by `wordSize`, subtract 8 from `cnt`; loop again while
`cnt - 8 ≥ 0` (`bgez(tmp4, copy8)`); on exit, branch to `done` when `cnt` is
exactly zero, otherwise fall into `copy_small`.  The `cnt < 8` entry case
replays the signed-arithmetic behaviour (the word is copied, the counter goes
negative, and `copy_small` performs its single do-while iteration); that case
is unreachable from `copy_memory`, which only enters `copy8` with `cnt ≥ 8`. -/
def moves8F (g : Gran) (src dst cnt : Nat) : List Move :=
  let mv : Move := ⟨src, dst, 8⟩
  if cnt < 8 then mv :: movesSmallF g (src + 8) (dst + 8) 0
  else if 8 ≤ cnt - 8 then mv :: moves8F g (src + 8) (dst + 8) (cnt - 8)
  else if cnt - 8 = 0 then [mv]
  else mv :: movesSmallF g (src + 8) (dst + 8) (cnt - 8)
termination_by cnt
decreasing_by
  omega

/-- The `same_aligned` loop of `copy_memory`, forward direction: while the
source is not word-aligned (`andi(tmp, src, 0b111)`), copy one element and
advance; branch to `copy8` the moment the source is aligned; stop at `done`
when `cnt` reaches zero (`beqz(cnt, done)`). -/
def movesAlignF (g : Gran) (src dst cnt : Nat) : List Move :=
  if src &&& 7 = 0 then moves8F g src dst cnt
  else
    let mv : Move := ⟨src, dst, g.val⟩
    if cnt - g.val = 0 then [mv]
    else mv :: movesAlignF g (src + g.val) (dst + g.val) (cnt - g.val)
termination_by cnt
decreasing_by
  cases g <;> simp [Gran.val] at * <;> omega

/-- The `copy_small` do-while loop, backward direction: pointers are
pre-decremented (`addi(src, src, step)` with negative step before the
load/store). -/
def movesSmallB (g : Gran) (src dst cnt : Nat) : List Move :=
  let mv : Move := ⟨src - g.val, dst - g.val, g.val⟩
  if cnt - g.val = 0 then [mv]
  else mv :: movesSmallB g (src - g.val) (dst - g.val) (cnt - g.val)
termination_by cnt
decreasing_by
  cases g <;> simp [Gran.val] at * <;> omega

/-- The `copy8` word loop, backward direction: the word pointers are
pre-decremented by `wordSize` before the load/store. -/
def moves8B (g : Gran) (src dst cnt : Nat) : List Move :=
  let mv : Move := ⟨src - 8, dst - 8, 8⟩
  if cnt < 8 then mv :: movesSmallB g (src - 8) (dst - 8) 0
  else if 8 ≤ cnt - 8 then mv :: moves8B g (src - 8) (dst - 8) (cnt - 8)
  else if cnt - 8 = 0 then [mv]
  else mv :: movesSmallB g (src - 8) (dst - 8) (cnt - 8)
termination_by cnt
decreasing_by
  omega

/-- The `same_aligned` loop, backward direction: alignment is tested on the
current (one-past-the-end) source pointer, elements are copied with
pre-decrement. -/
def movesAlignB (g : Gran) (src dst cnt : Nat) : List Move :=
  if src &&& 7 = 0 then moves8B g src dst cnt
  else
    let mv : Move := ⟨src - g.val, dst - g.val, g.val⟩
    if cnt - g.val = 0 then [mv]
    else mv :: movesAlignB g (src - g.val) (dst - g.val) (cnt - g.val)
termination_by cnt
decreasing_by
  cases g <;> simp [Gran.val] at * <;> omega

/-- The modulus of the 64-bit registers. -/
def w64 : Nat := 2 ^ 64

/-- `copy_memory` with positive step (forward): nothing on zero count
(`beqz(count, done)`); `cnt` is the byte count (`slli(cnt, count,
exact_log2(granularity))`, a 64-bit register); with `is_aligned` the word loop
is entered directly when at least one word remains; otherwise short copies,
and copies whose source and destination differ modulo 8 (`xorr`/`andi`), go
element by element, and the rest start in the aligning loop. -/
def copyMemoryMovesF (g : Gran) (aligned : Bool) (s d count : Nat) : List Move :=
  if count = 0 then []
  else
    let cnt := (count * g.val) % w64
    if aligned then
      if 8 ≤ cnt then moves8F g s d cnt else movesSmallF g s d cnt
    else if cnt < 16 then movesSmallF g s d cnt
    else if (s ^^^ d) &&& 7 ≠ 0 then movesSmallF g s d cnt
    else movesAlignF g s d cnt

/-- `copy_memory` with negative step (backward): the running pointers start
one past the end (`add(src, s, cnt)` / `add(dst, d, cnt)`). -/
def copyMemoryMovesB (g : Gran) (aligned : Bool) (s d count : Nat) : List Move :=
  if count = 0 then []
  else
    let cnt := (count * g.val) % w64
    let src := s + cnt
    let dst := d + cnt
    if aligned then
      if 8 ≤ cnt then moves8B g src dst cnt else movesSmallB g src dst cnt
    else if cnt < 16 then movesSmallB g src dst cnt
    else if (src ^^^ dst) &&& 7 ≠ 0 then movesSmallB g src dst cnt
    else movesAlignB g src dst cnt

/-- `generate_disjoint_copy`: runs `copy_memory` forward. -/
def disjointMoves (g : Gran) (aligned : Bool) (s d count : Nat) : List Move :=
  copyMemoryMovesF g aligned s d count

/-- The 64-bit two's-complement subtraction `sub(t0, d, s)` as an unsigned
value, for `s, d < 2^64`. -/
def wsub (d s : Nat) : Nat := (d + w64 - s) % w64

/-- `generate_conjoint_copy`: `sub(t0, d, s); slli(t1, count,
exact_log2(size)); bgeu(t0, t1, nooverlap_target)` — delegate to the disjoint
forward copy when `d - s ≥ count * size` unsigned, otherwise run `copy_memory`
backward. -/
def conjointMoves (g : Gran) (aligned : Bool) (s d count : Nat) : List Move :=
  if (count * g.val) % w64 ≤ wsub d s then disjointMoves g aligned s d count
  else copyMemoryMovesB g aligned s d count

/-- Ascending consecutive block structure: `Consec s d j l k` says the moves
of `l` copy exactly the byte range `[j, k)` (offsets relative to the bases `s`
and `d`), in ascending order, each block read wholly before being written. -/
inductive Consec (s d : Nat) : Nat → List Move → Nat → Prop
  | nil (j : Nat) : Consec s d j [] j
  | cons (j w k : Nat) (rest : List Move) :
      Consec s d (j + w) rest k →
      Consec s d j (⟨s + j, d + j, w⟩ :: rest) k

/-- Descending consecutive block structure for the backward loops: the moves
of `l` copy exactly the byte range `[k, j)` downward. -/
inductive ConsecB (s d : Nat) : Nat → List Move → Nat → Prop
  | nil (j : Nat) : ConsecB s d j [] j
  | cons (j w k : Nat) (rest : List Move) :
      w ≤ j →
      ConsecB s d (j - w) rest k →
      ConsecB s d j (⟨s + j - w, d + j - w, w⟩ :: rest) k

/-- Modelled from the spec's words (§4.4: a bulk loop of a fixed block of 8
machine words per iteration, a drained remainder loop of 4, 2 and 1 words,
then an element-size tail), for comparison with the code's actual block
structure: the block-size trace the claim predicts for an aligned copy of
`bytes` bytes. -/
def claimedAlignedBlocks (g : Gran) (bytes : Nat) : List Nat :=
  List.replicate (bytes / 64) 64 ++
    ((if 32 ≤ bytes % 64 then [32] else []) ++
      ((if 16 ≤ bytes % 32 then [16] else []) ++
        ((if 8 ≤ bytes % 16 then [8] else []) ++
          List.replicate (bytes % 8 / g.val) g.val)))

end ArrayCopy

namespace CallConv

/-- The `BasicType` tags handled by the two convention mappers. -/
inductive BasicType
  | tBoolean
  | tChar
  | tByte
  | tShort
  | tInt
  | tLong
  | tObject
  | tArray
  | tAddress
  | tMetadata
  | tFloat
  | tDouble
  | tVoid
deriving DecidableEq

/-- An argument location: the `idx`-th entry of the convention's integer
argument register table (`INT_ArgReg`), the `idx`-th entry of its
floating-point table (`FP_ArgReg`), or the outgoing stack slot
`VMRegImpl::stack2reg(slot)`. -/
inductive VMLoc
  | intReg (idx : Nat)
  | fpReg (idx : Nat)
  | stack (slot : Nat)
deriving DecidableEq

/-- What a mapper records for one signature position: `regs[i].set1`,
`regs[i].set2`, or `regs[i].set_bad()`. -/
inductive RegAssign
  | one (l : VMLoc)
  | two (l : VMLoc)
  | bad
deriving DecidableEq

/-- The three cursors of a convention walk: `int_args`, `fp_args`,
`stk_args`. -/
structure ConvState where
  intArgs : Nat
  fpArgs : Nat
  stkArgs : Nat
deriving DecidableEq

/-- `Argument::n_int_register_parameters_j` = `Argument::n_float_register_parameters_j`
= `Argument::n_int_register_parameters_c` = `Argument::n_float_register_parameters_c`
= 8 on riscv64 (the tables list `x_rarg0 .. x_rarg7` / `x_farg0 .. x_farg7`). -/
def nRegParams : Nat := 8

/-- One case of the `switch (sig_bt[i])` of
`SharedRuntime::java_calling_convention`.  Floats and doubles go to a
floating register while one is free and otherwise directly to the stack;
`T_VOID` consumes nothing (`set_bad`).  A tag outside the switch
(`T_METADATA`) hits `ShouldNotReachHere` and is modelled as `bad`. -/
def javaStep (bt : BasicType) (st : ConvState) : RegAssign × ConvState :=
  match bt with
  | .tBoolean | .tChar | .tByte | .tShort | .tInt =>
    if st.intArgs < nRegParams then
      (.one (.intReg st.intArgs), { st with intArgs := st.intArgs + 1 })
    else (.one (.stack st.stkArgs), { st with stkArgs := st.stkArgs + 2 })
  | .tLong | .tObject | .tArray | .tAddress =>
    if st.intArgs < nRegParams then
      (.two (.intReg st.intArgs), { st with intArgs := st.intArgs + 1 })
    else (.two (.stack st.stkArgs), { st with stkArgs := st.stkArgs + 2 })
  | .tFloat =>
    if st.fpArgs < nRegParams then
      (.one (.fpReg st.fpArgs), { st with fpArgs := st.fpArgs + 1 })
    else (.one (.stack st.stkArgs), { st with stkArgs := st.stkArgs + 2 })
  | .tDouble =>
    if st.fpArgs < nRegParams then
      (.two (.fpReg st.fpArgs), { st with fpArgs := st.fpArgs + 1 })
    else (.two (.stack st.stkArgs), { st with stkArgs := st.stkArgs + 2 })
  | .tVoid => (.bad, st)
  | .tMetadata => (.bad, st)

/-- One case of the `switch (sig_bt[i])` of
`SharedRuntime::c_calling_convention`.  The difference to the Java walk:
`T_METADATA` is a legal integer-family tag, and a float or double whose
floating registers are exhausted falls back to a *free integer register*
before spilling to the stack. -/
def cStep (bt : BasicType) (st : ConvState) : RegAssign × ConvState :=
  match bt with
  | .tBoolean | .tChar | .tByte | .tShort | .tInt =>
    if st.intArgs < nRegParams then
      (.one (.intReg st.intArgs), { st with intArgs := st.intArgs + 1 })
    else (.one (.stack st.stkArgs), { st with stkArgs := st.stkArgs + 2 })
  | .tLong | .tObject | .tArray | .tAddress | .tMetadata =>
    if st.intArgs < nRegParams then
      (.two (.intReg st.intArgs), { st with intArgs := st.intArgs + 1 })
    else (.two (.stack st.stkArgs), { st with stkArgs := st.stkArgs + 2 })
  | .tFloat =>
    if st.fpArgs < nRegParams then
      (.one (.fpReg st.fpArgs), { st with fpArgs := st.fpArgs + 1 })
    else if st.intArgs < nRegParams then
      (.one (.intReg st.intArgs), { st with intArgs := st.intArgs + 1 })
    else (.one (.stack st.stkArgs), { st with stkArgs := st.stkArgs + 2 })
  | .tDouble =>
    if st.fpArgs < nRegParams then
      (.two (.fpReg st.fpArgs), { st with fpArgs := st.fpArgs + 1 })
    else if st.intArgs < nRegParams then
      (.two (.intReg st.intArgs), { st with intArgs := st.intArgs + 1 })
    else (.two (.stack st.stkArgs), { st with stkArgs := st.stkArgs + 2 })
  | .tVoid => (.bad, st)

/-- The signature walk common to both mappers. -/
def runConv (step : BasicType → ConvState → RegAssign × ConvState) :
    List BasicType → ConvState → List RegAssign × ConvState
  | [], st => ([], st)
  | bt :: rest, st =>
    let a := step bt st
    let r := runConv step rest a.2
    (a.1 :: r.1, r.2)

/-- The cursor state reached just before position `i`. -/
def stateAt (step : BasicType → ConvState → RegAssign × ConvState)
    (sig : List BasicType) (i : Nat) : ConvState :=
  (runConv step (sig.take i) ⟨0, 0, 0⟩).2

/-- `SharedRuntime::java_calling_convention`: the assignments and
`align_up(stk_args, 2)`. -/
def javaCallingConvention (sig : List BasicType) : List RegAssign × Nat :=
  let r := runConv javaStep sig ⟨0, 0, 0⟩
  (r.1, (r.2.stkArgs + 1) / 2 * 2)

/-- `SharedRuntime::c_calling_convention`: the assignments and `stk_args`. -/
def cCallingConvention (sig : List BasicType) : List RegAssign × Nat :=
  let r := runConv cStep sig ⟨0, 0, 0⟩
  (r.1, r.2.stkArgs)

end CallConv

namespace ObjMove

/-- Point update of a register file or a memory. -/
def update (f : Nat → Nat) (a v : Nat) : Nat → Nat :=
  fun x => if x = a then v else f x

/-- Machine state seen by `object_move`: the integer register file (by
physical register number), the memory (64-bit cells keyed by byte address —
every access in `object_move` is a full `ld`/`sd`), and the frame and stack
pointers. -/
structure MState where
  regs : Nat → Nat
  mem : Nat → Nat
  fp : Nat
  sp : Nat

/-- Physical register numbers of the scratch registers `t0` (x5) and `t1`
(x6). -/
def t0reg : Nat := 5

def t1reg : Nat := 6

/-- `VMRegImpl::stack_slot_size`. -/
def stackSlotSize : Nat := 4

/-- `VMRegImpl::slots_per_word` on a 64-bit machine. -/
def slotsPerWord : Nat := 2

/-- `reg2offset_in`: `(r->reg2stack() + 4) * VMRegImpl::stack_slot_size`. -/
def reg2offset_in (slot : Nat) : Nat := (slot + 4) * stackSlotSize

/-- `reg2offset_out`: `(r->reg2stack() + SharedRuntime::out_preserve_stack_slots())
* VMRegImpl::stack_slot_size`; the preserve-slot count is kept abstract. -/
def reg2offset_out (outPreserve slot : Nat) : Nat := (slot + outPreserve) * stackSlotSize

/-- Source of the oop argument: an incoming stack slot, or the `j`-th Java
argument register `j_rarg{j}` whose physical register number is `rid`
(`object_move` derives `oop_slot` from which `j_rarg` the source is). -/
inductive SrcLoc
  | stack (slot : Nat)
  | jreg (j : Fin 8) (rid : Nat)

/-- Destination of the argument under the C convention. -/
inductive DstLoc
  | stack (slot : Nat)
  | reg (rid : Nat)

/-- `Register rHandle = dst.first()->is_stack() ? t1 : dst.first()->as_Register()`. -/
def rHandleOf (dst : DstLoc) : Nat :=
  match dst with
  | .stack _ => t1reg
  | .reg r => r

/-- The stack slot that holds (or already held) the reference: the incoming
slot itself for a stack source, the reserved oop-handle slot
`sp + (j * slots_per_word + oop_handle_offset) * stack_slot_size` for a
register source. -/
def handleSlotAddr (oopHandleOffset : Nat) (st : MState) (src : SrcLoc) : Nat :=
  match src with
  | .stack slot => st.fp + reg2offset_in slot
  | .jreg j _ => st.sp + (j.val * slotsPerWord + oopHandleOffset) * stackSlotSize

/-- The reference value being moved. -/
def srcOopValue (st : MState) (src : SrcLoc) : Nat :=
  match src with
  | .stack slot => st.mem (st.fp + reg2offset_in slot)
  | .jreg _ rid => st.regs rid

/-- `object_move` (sharedRuntime_riscv64.cpp): for a stack source, load the
oop into `t0`, materialise the slot's address in `rHandle` (`la`), and
conditionally replace it with zero when the oop is null; for a register
source, store the oop into its reserved handle slot, then set `rHandle` to
the slot address or zero, with the special ordering used when the source
register is `rHandle` itself; finally, a stack destination receives `rHandle`
with an `sd`.  (The oop-map bookkeeping `map->set_oop`/`receiver_offset` has
no machine-state effect and is not modelled.) -/
def object_move (oopHandleOffset outPreserve : Nat) (st : MState)
    (src : SrcLoc) (dst : DstLoc) : MState :=
  let rHandle := rHandleOf dst
  let st1 :=
    match src with
    | .stack slot =>
      let addr := st.fp + reg2offset_in slot
      let r1 := update st.regs t0reg (st.mem addr)
      let r2 := update r1 rHandle addr
      let r3 := if r2 t0reg ≠ 0 then r2 else update r2 rHandle 0
      { st with regs := r3 }
    | .jreg j rid =>
      let rOopV := st.regs rid
      let offset := (j.val * slotsPerWord + oopHandleOffset) * stackSlotSize
      let stm := { st with mem := update st.mem (st.sp + offset) rOopV }
      if rid = rHandle then
        if rOopV = 0 then stm
        else { stm with regs := update stm.regs rHandle (st.sp + offset) }
      else
        let r1 := update stm.regs rHandle (st.sp + offset)
        let r2 := if rOopV ≠ 0 then r1 else update r1 rHandle 0
        { stm with regs := r2 }
  match dst with
  | .stack ds =>
    { st1 with mem := update st1.mem (st1.sp + reg2offset_out outPreserve ds) (st1.regs (rHandleOf dst)) }
  | .reg _ => st1

/-- The argument value the native callee will see in `dst`. -/
def passedValue (outPreserve : Nat) (st : MState) (dst : DstLoc) : Nat :=
  match dst with
  | .stack ds => st.mem (st.sp + reg2offset_out outPreserve ds)
  | .reg r => st.regs r

end ObjMove

namespace Interp

/-- `Interpreter::stackElementSize` on a 64-bit machine (one slot of 8
bytes; `logStackElementSize = 3`). -/
def stackElementSize : Nat := 8

/-- `andi(sp, x30, -16)`: clear the low four bits of the 64-bit sender SP. -/
def alignDown16 (x : Nat) : Nat := x / 16 * 16

/-- Observable steps of `generate_stack_overflow_check`: the load of the
precise thread-local limit (`ld(t0, stack_limit)`) and the terminal jump to
the `StackOverflowError` stub (`far_jump(throw_StackOverflowError_entry)`). -/
inductive SOEvent
  | probeLimit
  | throwJump
deriving DecidableEq

/-- Outcome of the generated check: fall through to `after_frame_check`, or
discard the half-built frame and leave with the given restored stack
pointer. -/
inductive SOResult
  | proceed
  | throwSO (newSp : Nat)
deriving DecidableEq

/-- Inputs of the generated check: `x13` (additional locals in stack
elements), the current `sp`, the sender's `sp` (`x30`),
`JavaThread::stack_overflow_limit`, `os::vm_page_size()` and the fixed
`overhead_size`. -/
structure SOIn where
  locals : Nat
  sp : Nat
  senderSp : Nat
  limit : Nat
  pageSize : Nat
  overhead : Nat

/-- `TemplateInterpreterGenerator::generate_stack_overflow_check`: compare
`x13` against the precomputed `(page_size - overhead_size) /
Interpreter::stackElementSize` (`bleu(x13, t0, after_frame_check)`); only
past that, load the precise limit, form `overhead + locals*8 + limit` and
compare against `sp` (`bgtu`); on overflow, peel `sp` back to the aligned
sender SP and jump to the throw stub, which never returns. -/
def stackOverflowCheck (i : SOIn) : SOResult × List SOEvent :=
  let threshold := (i.pageSize - i.overhead) / stackElementSize
  if i.locals ≤ threshold then (.proceed, [])
  else
    let needed := i.overhead + i.locals * stackElementSize + i.limit
    if needed < i.sp then (.proceed, [.probeLimit])
    else (.throwSO (alignDown16 i.senderSp), [.probeLimit, .throwJump])

/-- The steps of the generated normal method entry that matter to the claims:
frame building, the two overflow checks, monitor locking and the first
dispatch. -/
inductive IEvent
  | loadSizes
  | stackCheck
  | probeLimit
  | jumpThrowSO
  | allocLocals
  | fixedFrame
  | setDNU
  | counterCheck
  | profileCall
  | counterOverflowCall
  | bangShadow
  | clearDNU
  | lockMethod
  | notifyEntry
  | dispatch
deriving DecidableEq

/-- Inputs deciding the path through the generated entry: the stack-check
inputs, the build-time flags `inc_counter` (`UseCompiler ||
CountCompiledCalls || LogTouchedMethods`) and `ProfileInterpreter`, whether
the profile limit triggers `profile_method`, whether the invocation counter
overflows, and whether the method is synchronized. -/
structure NEIn where
  so : SOIn
  incCounter : Bool
  profileInterp : Bool
  profileMethod : Bool
  counterOverflow : Bool
  synchronized : Bool

/-- Execution trace of the code emitted by
`TemplateInterpreterGenerator::generate_normal_entry` on one invocation:
load the parameter/local sizes, run `generate_stack_overflow_check` (a
failing check jumps to the throw stub and nothing else runs), allocate and
zero the locals, build the fixed frame, set `do_not_unlock_if_synchronized`,
run `generate_counter_incr` (a profile trigger calls
`InterpreterRuntime::profile_method` and re-enters; a counter overflow calls
`generate_counter_overflow`'s runtime and re-enters at
`continue_after_compile`), bang the shadow pages, clear the flag, run
`lock_method()` only for a synchronized method, and dispatch. -/
def normalEntryTrace (i : NEIn) : List IEvent :=
  let soc := stackOverflowCheck i.so
  let soEvents := IEvent.stackCheck :: soc.2.map (fun e =>
    match e with
    | .probeLimit => IEvent.probeLimit
    | .throwJump => IEvent.jumpThrowSO)
  IEvent.loadSizes :: soEvents ++
    (match soc.1 with
     | .throwSO _ => []
     | .proceed =>
       [IEvent.allocLocals, IEvent.fixedFrame, IEvent.setDNU] ++
       (if i.incCounter then
          IEvent.counterCheck ::
            ((if i.profileInterp && i.profileMethod then [IEvent.profileCall] else []) ++
              (if i.counterOverflow then [IEvent.counterOverflowCall] else []))
        else []) ++
       [IEvent.bangShadow, IEvent.clearDNU] ++
       (if i.synchronized then [IEvent.lockMethod] else []) ++
       [IEvent.notifyEntry, IEvent.dispatch])

end Interp

namespace G1Post

/-- Thread-local and global state the post-write barrier touches: the memory
(card table bytes and queue buffer words, keyed by address), the
dirty-card-queue index and buffer base (`G1ThreadLocalData`), and the card
table base (`byte_map_base`). -/
structure G1State where
  mem : Nat → Nat
  dcqIndex : Nat
  dcqBuf : Nat
  byteMapBase : Nat

/-- Observable actions of the generated barrier code beyond the filter
branches: reads of the card byte, the `StoreLoad` fence, dirtying the card
(`sb(zr, card_addr)`), appending to the dirty-card log, and the runtime call
taken when the queue is exhausted. -/
inductive PBEvent
  | cardRead
  | fence
  | cardWrite
  | logAppend
  | runtimeCall
deriving DecidableEq

/-- `wordSize`. -/
def wordSize : Nat := 8

/-- `G1BarrierSetAssembler::g1_write_barrier_post`: `xorr(tmp, store_addr,
new_val); srli(tmp, tmp, LogOfHRGrainBytes); beqz(tmp, done)` — same-region
stores are filtered first; then `beqz(new_val, done)` filters null stores;
only then is the card byte computed (`srli(card_addr, store_addr,
card_shift)` plus `byte_map_base`), read, compared against the young-card
value, re-read after a `StoreLoad` fence and compared against
`dirty_card_val() == 0`, and finally dirtied and logged (or handed to the
runtime when the queue index is zero). -/
def g1_write_barrier_post (logHR cardShift youngVal : Nat)
    (storeAddr newVal : Nat) (st : G1State) : G1State × List PBEvent :=
  if (storeAddr ^^^ newVal) >>> logHR = 0 then (st, [])
  else if newVal = 0 then (st, [])
  else
    let cardAddr := (storeAddr >>> cardShift) + st.byteMapBase
    if st.mem cardAddr = youngVal then (st, [.cardRead])
    else if st.mem cardAddr = 0 then (st, [.cardRead, .fence, .cardRead])
    else
      let st1 := { st with mem := ObjMove.update st.mem cardAddr 0 }
      if st.dcqIndex = 0 then
        (st1, [.cardRead, .fence, .cardRead, .cardWrite, .runtimeCall])
      else
        let idx := st.dcqIndex - wordSize
        let st2 := { st1 with
          dcqIndex := idx,
          mem := ObjMove.update st1.mem (st1.dcqBuf + idx) cardAddr }
        (st2, [.cardRead, .fence, .cardRead, .cardWrite, .logAppend])

end G1Post

namespace Patching

/-- The two's-complement 64-bit bit pattern of the branch displacement
`dest - instruction_address()`. -/
def offsetBits (inst dest : Nat) : Nat := (dest + ArrayCopy.w64 - inst) % ArrayCopy.w64

/-- The `jal` instruction word built by `NativeCall::set_destination`:
opcode `0b1101111`, the four `Assembler::patch`ed immediate fields of the
J-type encoding, and `Rd = x1` (`lr`, register number 1). -/
def encodeJal (offBits : Nat) : Nat :=
  0b1101111 |||
    (((offBits >>> 20) &&& 0x1) <<< 31) |||
    (((offBits >>> 1) &&& 0x3ff) <<< 21) |||
    (((offBits >>> 11) &&& 0x1) <<< 20) |||
    (((offBits >>> 12) &&& 0xff) <<< 12) |||
    (1 <<< 7)

/-- One memory store of the patching code: address, width in bytes, value. -/
structure Store where
  addr : Nat
  width : Nat
  value : Nat
deriving DecidableEq

/-- The stores performed by `NativeCall::set_destination` on a `jal` call
site: the whole rebuilt instruction word is written with a single 32-bit
store (`set_int_at(displacement_offset, insn)`, `displacement_offset = 0`). -/
def setDestinationStores (inst dest : Nat) : List Store :=
  [⟨inst + 0, 4, encodeJal (offsetBits inst dest)⟩]

/-- `NativeCallTrampolineStub::data_offset`: `3 * instruction_size` = 12. -/
def trampolineDataOffset : Nat := 12

/-- Modelled from the spec: `NativeCallTrampolineStub::set_destination` is
declared in nativeInst_riscv64.hpp but its body is not part of the source
excerpt; per the spec (§3, trampoline idiom; the stub layout is
`auipc + ld + jr + target address` with the mutable destination in the
single naturally-aligned data word at `data_offset`), it rewrites that word
with one 64-bit store. -/
def trampolineSetDestinationStores (stub dest : Nat) : List Store :=
  [⟨stub + trampolineDataOffset, 8, dest⟩]

/-- A store executes atomically on a word-granular memory (one cell per
naturally-aligned word). -/
def applyStore (m : Nat → Nat) (s : Store) : Nat → Nat :=
  ObjMove.update m s.addr s.value

def applyStores (l : List Store) (m : Nat → Nat) : Nat → Nat :=
  l.foldl applyStore m

/-- Everything a concurrent reader's single atomic load of cell `a` can
return, one entry per interleaving point of the writer's store sequence. -/
def observations (writes : List Store) (m : Nat → Nat) (a : Nat) : List Nat :=
  (List.range (writes.length + 1)).map (fun k => applyStores (writes.take k) m a)

end Patching

/-! ## Theorems -/

namespace ArrayCopy

theorem Gran.val_pos (g : Gran) : 0 < g.val := by
  cases g <;> simp [Gran.val]

theorem Gran.val_dvd_eight (g : Gran) : g.val ∣ 8 := by
  cases g <;> simp [Gran.val] <;> decide

theorem and_seven (n : Nat) : n &&& 7 = n % 8 := by
  have h := Nat.and_pow_two_sub_one_eq_mod n 3
  simpa using h

theorem copyRange_degenerate (m : Mem) (s d j : Nat) : copyRange m s d j j = m := by
  funext a
  simp only [copyRange]
  split
  · omega
  · rfl

theorem applyMoves_nil (m : Mem) : applyMoves [] m = m := rfl

theorem applyMoves_cons (mv : Move) (l : List Move) (m : Mem) :
    applyMoves (mv :: l) m = applyMoves l (blockMove m mv.src mv.dst mv.w) := rfl

theorem consec_le {s d j k : Nat} {l : List Move} (h : Consec s d j l k) : j ≤ k := by
  induction h with
  | nil => exact le_refl _
  | cons j w k rest _ ih => omega

theorem consecB_ge {s d j k : Nat} {l : List Move} (h : ConsecB s d j l k) : k ≤ j := by
  induction h with
  | nil => exact le_refl _
  | cons j w k rest _ _ ih => omega

theorem blockMove_step (m : Mem) (s d N j w : Nat) (hsep : d ≤ s ∨ s + N ≤ d)
    (hjw : j + w ≤ N) :
    blockMove (copyRange m s d 0 j) (s + j) (d + j) w = copyRange m s d 0 (j + w) := by
  funext a
  simp only [blockMove, copyRange]
  by_cases h1 : d + j ≤ a ∧ a < d + j + w
  · rw [if_pos h1]
    have hx : s + j + (a - (d + j)) = s + (a - d) := by omega
    rw [hx]
    rw [if_neg (by omega), if_pos (by omega)]
  · rw [if_neg h1]
    by_cases h2 : d + 0 ≤ a ∧ a < d + j
    · rw [if_pos h2, if_pos (by omega)]
    · rw [if_neg h2, if_neg (by omega)]

theorem blockMove_stepB (m : Mem) (s d N j w : Nat) (hsep : s ≤ d ∨ s + N ≤ d)
    (hwj : w ≤ j) (hjN : j ≤ N) :
    blockMove (copyRange m s d j N) (s + j - w) (d + j - w) w =
      copyRange m s d (j - w) N := by
  funext a
  simp only [blockMove, copyRange]
  by_cases h1 : d + j - w ≤ a ∧ a < d + j - w + w
  · rw [if_pos h1]
    have hx : s + j - w + (a - (d + j - w)) = s + (a - d) := by omega
    rw [hx]
    rw [if_neg (by omega), if_pos (by omega)]
  · rw [if_neg h1]
    by_cases h2 : d + j ≤ a ∧ a < d + N
    · rw [if_pos h2, if_pos (by omega)]
    · rw [if_neg h2, if_neg (by omega)]

theorem applyMoves_consec (m : Mem) (s d N : Nat) (hsep : d ≤ s ∨ s + N ≤ d) :
    ∀ (j k : Nat) (l : List Move), Consec s d j l k → k ≤ N →
      applyMoves l (copyRange m s d 0 j) = copyRange m s d 0 k := by
  intro j k l h
  induction h with
  | nil j => intro _; exact applyMoves_nil _
  | cons j w k rest hrest ih =>
    intro hkN
    have hjw : j + w ≤ N := le_trans (consec_le hrest) hkN
    rw [applyMoves_cons]
    simp only
    rw [blockMove_step m s d N j w hsep hjw]
    exact ih hkN

theorem applyMoves_consecB (m : Mem) (s d N : Nat) (hsep : s ≤ d ∨ s + N ≤ d) :
    ∀ (j k : Nat) (l : List Move), ConsecB s d j l k → j ≤ N →
      applyMoves l (copyRange m s d j N) = copyRange m s d k N := by
  intro j k l h
  induction h with
  | nil j => intro _; exact applyMoves_nil _
  | cons j w k rest hwj hrest ih =>
    intro hjN
    rw [applyMoves_cons]
    simp only
    rw [blockMove_stepB m s d N j w hsep hwj hjN]
    exact ih (by omega)

theorem movesSmallF_consec (g : Gran) (s d : Nat) :
    ∀ cnt j, 0 < cnt → g.val ∣ cnt →
      Consec s d j (movesSmallF g (s + j) (d + j) cnt) (j + cnt) := by
  intro cnt
  induction cnt using Nat.strong_induction_on with
  | _ cnt ih =>
    intro j hpos hdvd
    have hg := Gran.val_pos g
    have hge : g.val ≤ cnt := Nat.le_of_dvd hpos hdvd
    rw [movesSmallF]
    by_cases h : cnt - g.val = 0
    · rw [if_pos h]
      have hcg : cnt = g.val := by omega
      subst hcg
      exact Consec.cons j g.val (j + g.val) [] (Consec.nil (j + g.val))
    · rw [if_neg h]
      have hrec := ih (cnt - g.val) (by omega) (j + g.val) (by omega)
        (Nat.dvd_sub' hdvd dvd_rfl)
      have heq : Consec s d (j + g.val)
          (movesSmallF g (s + j + g.val) (d + j + g.val) (cnt - g.val)) (j + cnt) := by
        have h1 : s + (j + g.val) = s + j + g.val := by omega
        have h2 : d + (j + g.val) = d + j + g.val := by omega
        have h3 : j + g.val + (cnt - g.val) = j + cnt := by omega
        rwa [h1, h2, h3] at hrec
      exact Consec.cons j g.val (j + cnt) _ heq

theorem moves8F_consec (g : Gran) (s d : Nat) :
    ∀ cnt j, 8 ≤ cnt → g.val ∣ cnt →
      Consec s d j (moves8F g (s + j) (d + j) cnt) (j + cnt) := by
  intro cnt
  induction cnt using Nat.strong_induction_on with
  | _ cnt ih =>
    intro j h8 hdvd
    have hg := Gran.val_pos g
    have hdvd8 : g.val ∣ cnt - 8 := Nat.dvd_sub' hdvd (Gran.val_dvd_eight g)
    rw [moves8F]
    rw [if_neg (by omega)]
    by_cases h1 : 8 ≤ cnt - 8
    · rw [if_pos h1]
      have hrec := ih (cnt - 8) (by omega) (j + 8) h1 hdvd8
      have heq : Consec s d (j + 8)
          (moves8F g (s + j + 8) (d + j + 8) (cnt - 8)) (j + cnt) := by
        have h2 : s + (j + 8) = s + j + 8 := by omega
        have h3 : d + (j + 8) = d + j + 8 := by omega
        have h4 : j + 8 + (cnt - 8) = j + cnt := by omega
        rwa [h2, h3, h4] at hrec
      exact Consec.cons j 8 (j + cnt) _ heq
    · rw [if_neg h1]
      by_cases h2 : cnt - 8 = 0
      · rw [if_pos h2]
        have hc8 : cnt = 8 := by omega
        subst hc8
        exact Consec.cons j 8 (j + 8) [] (Consec.nil (j + 8))
      · rw [if_neg h2]
        have hrec := movesSmallF_consec g s d (cnt - 8) (j + 8) (by omega) hdvd8
        have heq : Consec s d (j + 8)
            (movesSmallF g (s + j + 8) (d + j + 8) (cnt - 8)) (j + cnt) := by
          have h3 : s + (j + 8) = s + j + 8 := by omega
          have h4 : d + (j + 8) = d + j + 8 := by omega
          have h5 : j + 8 + (cnt - 8) = j + cnt := by omega
          rwa [h3, h4, h5] at hrec
        exact Consec.cons j 8 (j + cnt) _ heq

theorem movesAlignF_consec (g : Gran) (s d : Nat) :
    ∀ cnt j, 0 < cnt → g.val ∣ cnt →
      (g.val ∣ (8 - (s + j) % 8) % 8 → (8 - (s + j) % 8) % 8 + 8 ≤ cnt) →
      Consec s d j (movesAlignF g (s + j) (d + j) cnt) (j + cnt) := by
  intro cnt
  induction cnt using Nat.strong_induction_on with
  | _ cnt ih =>
    intro j hpos hdvd hP
    have hg := Gran.val_pos g
    have hge : g.val ≤ cnt := Nat.le_of_dvd hpos hdvd
    rw [movesAlignF]
    by_cases ha : (s + j) &&& 7 = 0
    · rw [if_pos ha]
      rw [and_seven] at ha
      have h8 : 8 ≤ cnt := by
        have := hP (by simp [ha])
        omega
      exact moves8F_consec g s d cnt j h8 hdvd
    · rw [if_neg ha]
      rw [and_seven] at ha
      by_cases h : cnt - g.val = 0
      · rw [if_pos h]
        have hcg : cnt = g.val := by omega
        subst hcg
        exact Consec.cons j g.val (j + g.val) [] (Consec.nil (j + g.val))
      · rw [if_neg h]
        have hmod : (s + (j + g.val)) % 8 = ((s + j) % 8 + g.val) % 8 := by
          cases g <;> simp only [Gran.val] <;> omega
        have hr : (s + j) % 8 < 8 := Nat.mod_lt _ (by omega)
        have hPnext : g.val ∣ (8 - (s + (j + g.val)) % 8) % 8 →
            (8 - (s + (j + g.val)) % 8) % 8 + 8 ≤ cnt - g.val := by
          intro hdvd2
          rw [hmod] at hdvd2 ⊢
          by_cases hd : g.val ∣ (8 - (s + j) % 8) % 8
          · have hlin := hP hd
            cases g <;> simp only [Gran.val] at * <;> omega
          · exfalso
            apply hd
            cases g <;> simp only [Gran.val] at hdvd2 ⊢ <;> omega
        have hrec := ih (cnt - g.val) (by omega) (j + g.val) (by omega)
          (Nat.dvd_sub' hdvd dvd_rfl) hPnext
        have heq : Consec s d (j + g.val)
            (movesAlignF g (s + j + g.val) (d + j + g.val) (cnt - g.val)) (j + cnt) := by
          have h1 : s + (j + g.val) = s + j + g.val := by omega
          have h2 : d + (j + g.val) = d + j + g.val := by omega
          have h3 : j + g.val + (cnt - g.val) = j + cnt := by omega
          rwa [h1, h2, h3] at hrec
        exact Consec.cons j g.val (j + cnt) _ heq

theorem movesSmallB_consecB (g : Gran) (s d : Nat) :
    ∀ cnt, 0 < cnt → g.val ∣ cnt →
      ConsecB s d cnt (movesSmallB g (s + cnt) (d + cnt) cnt) 0 := by
  intro cnt
  induction cnt using Nat.strong_induction_on with
  | _ cnt ih =>
    intro hpos hdvd
    have hg := Gran.val_pos g
    have hge : g.val ≤ cnt := Nat.le_of_dvd hpos hdvd
    rw [movesSmallB]
    by_cases h : cnt - g.val = 0
    · rw [if_pos h]
      have hcg : cnt = g.val := by omega
      have hnil : ConsecB s d (cnt - g.val) ([] : List Move) 0 := by
        rw [h]; exact ConsecB.nil 0
      exact ConsecB.cons cnt g.val 0 [] hge hnil
    · rw [if_neg h]
      have hrec := ih (cnt - g.val) (by omega) (by omega)
        (Nat.dvd_sub' hdvd dvd_rfl)
      have heq : ConsecB s d (cnt - g.val)
          (movesSmallB g (s + cnt - g.val) (d + cnt - g.val) (cnt - g.val)) 0 := by
        have h1 : s + (cnt - g.val) = s + cnt - g.val := by omega
        have h2 : d + (cnt - g.val) = d + cnt - g.val := by omega
        rwa [h1, h2] at hrec
      exact ConsecB.cons cnt g.val 0 _ hge heq

theorem moves8B_consecB (g : Gran) (s d : Nat) :
    ∀ cnt, 8 ≤ cnt → g.val ∣ cnt →
      ConsecB s d cnt (moves8B g (s + cnt) (d + cnt) cnt) 0 := by
  intro cnt
  induction cnt using Nat.strong_induction_on with
  | _ cnt ih =>
    intro h8 hdvd
    have hg := Gran.val_pos g
    have hdvd8 : g.val ∣ cnt - 8 := Nat.dvd_sub' hdvd (Gran.val_dvd_eight g)
    rw [moves8B]
    rw [if_neg (by omega)]
    by_cases h1 : 8 ≤ cnt - 8
    · rw [if_pos h1]
      have hrec := ih (cnt - 8) (by omega) h1 hdvd8
      have heq : ConsecB s d (cnt - 8)
          (moves8B g (s + cnt - 8) (d + cnt - 8) (cnt - 8)) 0 := by
        have h2 : s + (cnt - 8) = s + cnt - 8 := by omega
        have h3 : d + (cnt - 8) = d + cnt - 8 := by omega
        rwa [h2, h3] at hrec
      exact ConsecB.cons cnt 8 0 _ (by omega) heq
    · rw [if_neg h1]
      by_cases h2 : cnt - 8 = 0
      · rw [if_pos h2]
        have hnil : ConsecB s d (cnt - 8) ([] : List Move) 0 := by
          rw [h2]; exact ConsecB.nil 0
        exact ConsecB.cons cnt 8 0 [] (by omega) hnil
      · rw [if_neg h2]
        have hrec := movesSmallB_consecB g s d (cnt - 8) (by omega) hdvd8
        have heq : ConsecB s d (cnt - 8)
            (movesSmallB g (s + cnt - 8) (d + cnt - 8) (cnt - 8)) 0 := by
          have h3 : s + (cnt - 8) = s + cnt - 8 := by omega
          have h4 : d + (cnt - 8) = d + cnt - 8 := by omega
          rwa [h3, h4] at hrec
        exact ConsecB.cons cnt 8 0 _ (by omega) heq

theorem movesAlignB_consecB (g : Gran) (s d : Nat) :
    ∀ cnt, 0 < cnt → g.val ∣ cnt →
      (g.val ∣ (s + cnt) % 8 → (s + cnt) % 8 + 8 ≤ cnt) →
      ConsecB s d cnt (movesAlignB g (s + cnt) (d + cnt) cnt) 0 := by
  intro cnt
  induction cnt using Nat.strong_induction_on with
  | _ cnt ih =>
    intro hpos hdvd hP
    have hg := Gran.val_pos g
    have hge : g.val ≤ cnt := Nat.le_of_dvd hpos hdvd
    rw [movesAlignB]
    by_cases ha : (s + cnt) &&& 7 = 0
    · rw [if_pos ha]
      rw [and_seven] at ha
      have h8 : 8 ≤ cnt := by
        have := hP (by simp [ha])
        omega
      exact moves8B_consecB g s d cnt h8 hdvd
    · rw [if_neg ha]
      rw [and_seven] at ha
      by_cases h : cnt - g.val = 0
      · rw [if_pos h]
        have hnil : ConsecB s d (cnt - g.val) ([] : List Move) 0 := by
          rw [h]; exact ConsecB.nil 0
        exact ConsecB.cons cnt g.val 0 [] hge hnil
      · rw [if_neg h]
        have hPnext : g.val ∣ (s + (cnt - g.val)) % 8 →
            (s + (cnt - g.val)) % 8 + 8 ≤ cnt - g.val := by
          intro hdvd2
          by_cases hd : g.val ∣ (s + cnt) % 8
          · have hlin := hP hd
            cases g <;> simp only [Gran.val] at * <;> omega
          · exfalso
            apply hd
            cases g <;> simp only [Gran.val] at * <;> omega
        have hrec := ih (cnt - g.val) (by omega) (by omega)
          (Nat.dvd_sub' hdvd dvd_rfl) hPnext
        have heq : ConsecB s d (cnt - g.val)
            (movesAlignB g (s + cnt - g.val) (d + cnt - g.val) (cnt - g.val)) 0 := by
          have h1 : s + (cnt - g.val) = s + cnt - g.val := by omega
          have h2 : d + (cnt - g.val) = d + cnt - g.val := by omega
          rwa [h1, h2] at hrec
        exact ConsecB.cons cnt g.val 0 _ hge heq

theorem copyMemoryMovesF_consec (g : Gran) (aligned : Bool) (s d count : Nat)
    (hcnt : count * g.val < w64) :
    Consec s d 0 (copyMemoryMovesF g aligned s d count) (count * g.val) := by
  rw [copyMemoryMovesF]
  by_cases hc : count = 0
  · subst hc
    simp only [if_pos rfl, Nat.zero_mul]
    exact Consec.nil 0
  · rw [if_neg hc]
    have hg := Gran.val_pos g
    have hmod : count * g.val % w64 = count * g.val := Nat.mod_eq_of_lt hcnt
    have hpos : 0 < count * g.val := Nat.mul_pos (Nat.pos_of_ne_zero hc) hg
    have hdvd : g.val ∣ count * g.val := dvd_mul_left g.val count
    have hs0 : s + 0 = s := by omega
    have hd0 : d + 0 = d := by omega
    have hsmall : Consec s d 0 (movesSmallF g s d (count * g.val)) (count * g.val) := by
      have h := movesSmallF_consec g s d (count * g.val) 0 hpos hdvd
      rwa [hs0, hd0, Nat.zero_add] at h
    have hword : 8 ≤ count * g.val →
        Consec s d 0 (moves8F g s d (count * g.val)) (count * g.val) := by
      intro h8
      have h := moves8F_consec g s d (count * g.val) 0 h8 hdvd
      rwa [hs0, hd0, Nat.zero_add] at h
    have halign : 16 ≤ count * g.val →
        Consec s d 0 (movesAlignF g s d (count * g.val)) (count * g.val) := by
      intro h16
      have hP : g.val ∣ (8 - (s + 0) % 8) % 8 →
          (8 - (s + 0) % 8) % 8 + 8 ≤ count * g.val := by
        intro _
        have : (8 - (s + 0) % 8) % 8 < 8 := Nat.mod_lt _ (by omega)
        omega
      have h := movesAlignF_consec g s d (count * g.val) 0 hpos hdvd hP
      rwa [hs0, hd0, Nat.zero_add] at h
    simp only [hmod]
    split
    · split
      · exact hword (by assumption)
      · exact hsmall
    · split
      · exact hsmall
      · split
        · exact hsmall
        · exact halign (by omega)

theorem copyMemoryMovesB_consecB (g : Gran) (aligned : Bool) (s d count : Nat)
    (hcnt : count * g.val < w64) :
    ConsecB s d (count * g.val) (copyMemoryMovesB g aligned s d count) 0 := by
  rw [copyMemoryMovesB]
  by_cases hc : count = 0
  · subst hc
    simp only [if_pos rfl, Nat.zero_mul]
    exact ConsecB.nil 0
  · rw [if_neg hc]
    have hg := Gran.val_pos g
    have hmod : count * g.val % w64 = count * g.val := Nat.mod_eq_of_lt hcnt
    have hpos : 0 < count * g.val := Nat.mul_pos (Nat.pos_of_ne_zero hc) hg
    have hdvd : g.val ∣ count * g.val := dvd_mul_left g.val count
    have halign : 16 ≤ count * g.val →
        ConsecB s d (count * g.val)
          (movesAlignB g (s + count * g.val) (d + count * g.val) (count * g.val)) 0 := by
      intro h16
      have hP : g.val ∣ (s + count * g.val) % 8 →
          (s + count * g.val) % 8 + 8 ≤ count * g.val := by
        intro _
        have : (s + count * g.val) % 8 < 8 := Nat.mod_lt _ (by omega)
        omega
      exact movesAlignB_consecB g s d (count * g.val) hpos hdvd hP
    simp only [hmod]
    split
    · split
      · exact moves8B_consecB g s d (count * g.val) (by assumption) hdvd
      · exact movesSmallB_consecB g s d (count * g.val) hpos hdvd
    · split
      · exact movesSmallB_consecB g s d (count * g.val) hpos hdvd
      · split
        · exact movesSmallB_consecB g s d (count * g.val) hpos hdvd
        · exact halign (by omega)

/-- Claim C2: the conjoint copy stub delegates to the disjoint forward copy
exactly when `d - s ≥ count * size` as an unsigned 64-bit comparison,
otherwise copies from the high end downward, and for every choice of bases,
count and granularity (no pointer wraparound) its final memory equals the
memory produced by the naive element-by-element oracle copy of the pristine
source — covering `count` zero, one, partial overlap, full overlap and
adjacent disjoint ranges alike. -/
theorem conjointCopy_matches_oracle (g : Gran) (aligned : Bool) (m : Mem)
    (s d count : Nat) (hn : count * g.val < w64)
    (hsw : s + count * g.val ≤ w64) (hdw : d + count * g.val ≤ w64)
    (hs : s < w64) (hd : d < w64) :
    applyMoves (conjointMoves g aligned s d count) m =
      copyRange m s d 0 (count * g.val) := by
  rw [conjointMoves]
  by_cases hb : count * g.val % w64 ≤ wsub d s
  · rw [if_pos hb]
    have hmod : count * g.val % w64 = count * g.val := Nat.mod_eq_of_lt hn
    rw [hmod] at hb
    have hsep : d ≤ s ∨ s + count * g.val ≤ d := by
      simp only [wsub, w64] at hb hn hsw hdw hs hd
      norm_num at hb hn hsw hdw hs hd
      omega
    have hcon := copyMemoryMovesF_consec g aligned s d count hn
    have happ := applyMoves_consec m s d (count * g.val) hsep 0 (count * g.val)
      (copyMemoryMovesF g aligned s d count) hcon (le_refl _)
    rwa [copyRange_degenerate] at happ
  · rw [if_neg hb]
    have hmod : count * g.val % w64 = count * g.val := Nat.mod_eq_of_lt hn
    rw [hmod] at hb
    have hsep : s ≤ d ∨ s + count * g.val ≤ d := by
      left
      simp only [wsub, w64] at hb hn hsw hdw hs hd
      norm_num at hb hn hsw hdw hs hd
      omega
    have hcon := copyMemoryMovesB_consecB g aligned s d count hn
    have happ := applyMoves_consecB m s d (count * g.val) hsep (count * g.val) 0
      (copyMemoryMovesB g aligned s d count) hcon (le_refl _)
    rwa [copyRange_degenerate] at happ

/-- Witness for C2: a one-byte-element copy of 4 elements from base 100 to
base 101 (overlap by three elements, backward path). -/
theorem conjointCopy_matches_oracle_witness :
    applyMoves (conjointMoves Gran.b1 false 100 101 4) (fun a => a) =
      copyRange (fun a => a) 100 101 0 (4 * Gran.b1.val) :=
  conjointCopy_matches_oracle Gran.b1 false (fun a => a) 100 101 4
    (by decide) (by decide) (by decide) (by decide) (by decide)

theorem moves8F_b8_words (s d : Nat) : ∀ k, moves8F Gran.b8 s d (8 * (k + 1)) =
    (List.range (k + 1)).map (fun i => Move.mk (s + 8 * i) (d + 8 * i) 8) := by
  intro k
  induction k generalizing s d with
  | zero =>
    rw [moves8F]
    norm_num
    simp [List.range_succ]
  | succ k ih =>
    rw [moves8F]
    rw [if_neg (by omega), if_pos (by omega)]
    have h3 : 8 * (k + 1 + 1) - 8 = 8 * (k + 1) := by omega
    rw [h3, ih]
    conv =>
      rhs
      rw [List.range_succ_eq_map]
    simp only [List.map_cons, List.map_map]
    refine List.cons_eq_cons.mpr ⟨by simp, ?_⟩
    apply List.map_congr_left
    intro i _
    simp only [Function.comp_apply, Move.mk.injEq]
    refine ⟨by omega, by omega, trivial⟩

theorem movesSmallF_w (g : Gran) :
    ∀ cnt src dst mv, mv ∈ movesSmallF g src dst cnt → mv.w = g.val := by
  intro cnt
  induction cnt using Nat.strong_induction_on with
  | _ cnt ih =>
    intro src dst mv hmem
    have hg := Gran.val_pos g
    rw [movesSmallF] at hmem
    by_cases h : cnt - g.val = 0
    · rw [if_pos h] at hmem
      simp at hmem
      rw [hmem]
    · rw [if_neg h] at hmem
      rcases List.mem_cons.mp hmem with h1 | h2
      · rw [h1]
      · exact ih (cnt - g.val) (by omega) _ _ mv h2

theorem moves8F_w (g : Gran) :
    ∀ cnt src dst mv, mv ∈ moves8F g src dst cnt → mv.w = 8 ∨ mv.w = g.val := by
  intro cnt
  induction cnt using Nat.strong_induction_on with
  | _ cnt ih =>
    intro src dst mv hmem
    rw [moves8F] at hmem
    by_cases h0 : cnt < 8
    · rw [if_pos h0] at hmem
      rcases List.mem_cons.mp hmem with h1 | h2
      · left; rw [h1]
      · right; exact movesSmallF_w g 0 _ _ mv h2
    · rw [if_neg h0] at hmem
      by_cases h1 : 8 ≤ cnt - 8
      · rw [if_pos h1] at hmem
        rcases List.mem_cons.mp hmem with h2 | h3
        · left; rw [h2]
        · exact ih (cnt - 8) (by omega) _ _ mv h3
      · rw [if_neg h1] at hmem
        by_cases h2 : cnt - 8 = 0
        · rw [if_pos h2] at hmem
          simp at hmem
          left; rw [hmem]
        · rw [if_neg h2] at hmem
          rcases List.mem_cons.mp hmem with h3 | h4
          · left; rw [h3]
          · right; exact movesSmallF_w g (cnt - 8) _ _ mv h4

theorem movesAlignF_w (g : Gran) :
    ∀ cnt src dst mv, mv ∈ movesAlignF g src dst cnt → mv.w = 8 ∨ mv.w = g.val := by
  intro cnt
  induction cnt using Nat.strong_induction_on with
  | _ cnt ih =>
    intro src dst mv hmem
    have hg := Gran.val_pos g
    rw [movesAlignF] at hmem
    by_cases ha : src &&& 7 = 0
    · rw [if_pos ha] at hmem
      exact moves8F_w g cnt _ _ mv hmem
    · rw [if_neg ha] at hmem
      by_cases h : cnt - g.val = 0
      · rw [if_pos h] at hmem
        simp at hmem
        right; rw [hmem]
      · rw [if_neg h] at hmem
        rcases List.mem_cons.mp hmem with h1 | h2
        · right; rw [h1]
        · exact ih (cnt - g.val) (by omega) _ _ mv h2

theorem copyMemoryMovesF_w (g : Gran) (al : Bool) (s d count : Nat) (mv : Move)
    (hmem : mv ∈ copyMemoryMovesF g al s d count) : mv.w = 8 ∨ mv.w = g.val := by
  rw [copyMemoryMovesF] at hmem
  by_cases hc : count = 0
  · rw [if_pos hc] at hmem
    simp at hmem
  · rw [if_neg hc] at hmem
    simp only at hmem
    split at hmem
    · split at hmem
      · exact moves8F_w g _ _ _ mv hmem
      · right; exact movesSmallF_w g _ _ _ mv hmem
    · split at hmem
      · right; exact movesSmallF_w g _ _ _ mv hmem
      · split at hmem
        · right; exact movesSmallF_w g _ _ _ mv hmem
        · exact movesAlignF_w g _ _ _ mv hmem

theorem copyMemoryMovesF_b8_concrete :
    copyMemoryMovesF Gran.b8 true 0 64 3 =
      [Move.mk 0 64 8, Move.mk 8 72 8, Move.mk 16 80 8] := by
  rw [copyMemoryMovesF, if_neg (by decide)]
  have hmod : (3 : Nat) * Gran.b8.val % w64 = 24 := by decide
  simp only [hmod, if_true]
  rw [if_pos (by norm_num)]
  have h := moves8F_b8_words 0 64 2
  norm_num at h
  rw [h]
  decide

/-- Claim C7 (amended): the aligned fast-path loop of the disjoint bulk copy
(`copy8` in `copy_memory`) moves one machine word (8 bytes) per iteration —
for an aligned word copy of `count` words the generated trace is `count`
one-word blocks — and no primitive move of `copy_memory` is ever larger than
one word (8 bytes) or one element.  The separately generated
`forward/backward_copy_longs` routine is the one that moves 8 words per
iteration with drains of 4 and 2 words, and it is never invoked by
`copy_memory`. -/
theorem alignedFastPath_one_word_per_iteration (s d count : Nat)
    (hn : 8 * count < w64) (hpos : 0 < count) :
    copyMemoryMovesF Gran.b8 true s d count =
      (List.range count).map (fun i => Move.mk (s + 8 * i) (d + 8 * i) 8) ∧
    (∀ (g : Gran) (al : Bool) (s2 d2 c2 : Nat) (mv : Move),
      mv ∈ copyMemoryMovesF g al s2 d2 c2 → mv.w = 8 ∨ mv.w = g.val) := by
  constructor
  · rw [copyMemoryMovesF, if_neg (by omega)]
    have hval : Gran.b8.val = 8 := rfl
    have hmod : count * Gran.b8.val % w64 = 8 * count := by
      rw [hval, Nat.mul_comm]
      exact Nat.mod_eq_of_lt hn
    simp only [hmod, if_true]
    rw [if_pos (by omega)]
    obtain ⟨k, hk⟩ : ∃ k, count = k + 1 := ⟨count - 1, by omega⟩
    subst hk
    exact moves8F_b8_words s d k
  · intro g al s2 d2 c2 mv hmem
    exact copyMemoryMovesF_w g al s2 d2 c2 mv hmem

/-- Witness for the amended C7 at a concrete input: three aligned words. -/
theorem alignedFastPath_one_word_per_iteration_witness :
    copyMemoryMovesF Gran.b8 true 0 64 3 =
      [Move.mk 0 64 8, Move.mk 8 72 8, Move.mk 16 80 8] := by
  have h := (alignedFastPath_one_word_per_iteration 0 64 3 (by decide) (by decide)).1
  rw [h]
  decide

/-- Claim C7 counterexample: on an aligned copy of three machine words (24
bytes) the disjoint copy's aligned fast path emits three one-word (8-byte)
blocks, one word per loop iteration, whereas the claimed structure — 8-word
blocks with a 4/2/1-word drain — predicts a 2-word block followed by a 1-word
block; the two traces differ. -/
theorem alignedFastPath_blockSize_counterexample :
    (copyMemoryMovesF Gran.b8 true 0 64 3).map Move.w = [8, 8, 8] ∧
    claimedAlignedBlocks Gran.b8 (3 * Gran.b8.val) = [16, 8] ∧
    ¬ ((copyMemoryMovesF Gran.b8 true 0 64 3).map Move.w =
        claimedAlignedBlocks Gran.b8 (3 * Gran.b8.val)) := by
  rw [copyMemoryMovesF_b8_concrete]
  refine ⟨by decide, by decide, by decide⟩

end ArrayCopy

namespace Checkcast

theorem ccRun_all_pass (sub : Nat → Bool) :
    ∀ src dst : List Oop, (∀ e ∈ src, elemPasses sub e = true) →
      ccRun sub src dst = (src ++ dst.drop src.length, src.length, true) := by
  intro src
  induction src with
  | nil => intro dst _; simp [ccRun]
  | cons e rest ih =>
    intro dst hall
    have he : elemPasses sub e = true := hall e (by simp)
    have hr := ih dst.tail (fun x hx => hall x (by simp [hx]))
    simp only [ccRun, he, if_pos, hr]
    cases dst <;> simp

theorem ccRun_fail_at (sub : Nat → Bool) :
    ∀ (src : List Oop) (K : Nat) (dst : List Oop) (eK : Oop),
      src.length ≤ dst.length →
      src.get? K = some eK →
      elemPasses sub eK = false →
      (∀ i e, i < K → src.get? i = some e → elemPasses sub e = true) →
      ccRun sub src dst = (src.take K ++ dst.drop K, K, false) := by
  intro src
  induction src with
  | nil => intro K dst eK _ hK; simp at hK
  | cons e rest ih =>
    intro K dst eK hlen hK hfail hpre
    cases K with
    | zero =>
      simp only [List.get?] at hK
      cases hK
      simp [ccRun, hfail]
    | succ K =>
      have he : elemPasses sub e = true := hpre 0 e (Nat.succ_pos K) rfl
      cases dst with
      | nil => simp at hlen
      | cons d dtl =>
        have hlen' : rest.length ≤ dtl.length := by
          simpa using hlen
        have hrec := ih K dtl eK hlen' (by simpa using hK) hfail
          (fun i x hi hx => hpre (i + 1) x (Nat.succ_lt_succ hi) (by simpa using hx))
        simp only [ccRun, he, if_pos, List.tail_cons, hrec]
        simp

/-- Claim C1: for the checked array copy stub, if the first element failing
the destination-element-type check is at index `K`, the stub stores exactly
the source elements at indices `[0, K)` into the destination (the rest of the
destination is untouched), stops there, and returns the negative encoded
count `-(K+1)`, which is negative — in particular distinct from the
all-success return 0 even when `K = 0`; and when every element passes the
check the stub copies everything and returns 0. -/
theorem checkcastCopy_first_failure_spec (sub : Nat → Bool) (src dst : List Oop)
    (hlen : src.length ≤ dst.length) :
    (∀ K eK, src.get? K = some eK → elemPasses sub eK = false →
      (∀ i e, i < K → src.get? i = some e → elemPasses sub e = true) →
      checkcastCopy sub src dst = (src.take K ++ dst.drop K, -((K : Int) + 1)) ∧
        -((K : Int) + 1) < 0) ∧
    ((∀ e ∈ src, elemPasses sub e = true) →
      checkcastCopy sub src dst = (src ++ dst.drop src.length, 0)) := by
  constructor
  · intro K eK hK hfail hpre
    have hne : ¬ src.isEmpty := by
      cases src with
      | nil => simp at hK
      | cons a l => simp
    have hrun := ccRun_fail_at sub src K dst eK hlen hK hfail hpre
    constructor
    · simp [checkcastCopy, hne, hrun]
    · omega
  · intro hall
    have hrun := ccRun_all_pass sub src dst hall
    cases src with
    | nil => simp [checkcastCopy]
    | cons a l => simp [checkcastCopy, hrun]

/-- Witness for C1 on a concrete input: source `[some 0, some 1]` with
subtype check accepting only klass 0, destination of three nulls: the first
failure is at index 1, one element is stored, and the stub returns `-2`. -/
theorem checkcastCopy_first_failure_spec_witness :
    checkcastCopy (fun k => k == 0) [some 0, some 1] [none, none, none] =
      ([some 0, none, none], -2) := by
  have h := (checkcastCopy_first_failure_spec (fun k => k == 0)
    [some 0, some 1] [none, none, none] (by decide)).1 1 (some 1) (by decide)
    (by decide)
    (by
      intro i e hi hx
      have hi0 : i = 0 := by omega
      subst hi0
      simp only [List.get?] at hx
      cases hx
      decide)
  simpa using h.1

/-- Claim C10: with element count zero the checkcast stub returns 0 at once
(`beqz(count, L_done)` precedes everything), with no element load or store
and no barrier prologue/epilogue; likewise `copy_memory` (in either
direction) performs no memory access when its count is zero (`beqz(count,
done)`). -/
theorem checkcastCopy_zero_count_noop :
    (∀ (sub : Nat → Bool) (dst : List Oop),
      checkcastCopy sub [] dst = (dst, 0) ∧ checkcastTrace sub [] = []) ∧
    (∀ (g : ArrayCopy.Gran) (al : Bool) (s d : Nat),
      ArrayCopy.copyMemoryMovesF g al s d 0 = [] ∧
        ArrayCopy.copyMemoryMovesB g al s d 0 = []) := by
  constructor
  · intro sub dst
    constructor
    · simp [checkcastCopy]
    · simp [checkcastTrace]
  · intro g al s d
    constructor
    · rw [ArrayCopy.copyMemoryMovesF]
      simp
    · rw [ArrayCopy.copyMemoryMovesB]
      simp

end Checkcast

namespace CallConv

theorem runConv_get (step : BasicType → ConvState → RegAssign × ConvState) :
    ∀ (sig : List BasicType) (st : ConvState) (i : Nat) (t : BasicType),
      sig.get? i = some t →
      (runConv step sig st).1.get? i =
        some (step t (runConv step (sig.take i) st).2).1 := by
  intro sig
  induction sig with
  | nil => intro st i t h; simp at h
  | cons bt rest ih =>
    intro st i t h
    cases i with
    | zero =>
      simp only [List.get?] at h
      cases h
      simp [runConv]
    | succ i =>
      simp only [List.get?] at h
      have hr := ih (step bt st).2 i t h
      simp only [runConv, List.take_succ_cons]
      simpa using hr

/-- Claim C3: in the C calling convention a float or double argument whose
position sees all floating-point argument registers exhausted but a free
integer argument register remaining is assigned that integer register, while
the Java calling convention never assigns a float or double to an integer
register: its floats and doubles go to a floating register or straight to a
stack slot. -/
theorem callingConvention_float_fallback_spec :
    (∀ (sig : List BasicType) (i : Nat) (t : BasicType),
      sig.get? i = some t → (t = .tFloat ∨ t = .tDouble) →
      nRegParams ≤ (stateAt cStep sig i).fpArgs →
      (stateAt cStep sig i).intArgs < nRegParams →
      (cCallingConvention sig).1.get? i =
        some (if t = .tFloat then RegAssign.one (.intReg (stateAt cStep sig i).intArgs)
              else RegAssign.two (.intReg (stateAt cStep sig i).intArgs))) ∧
    (∀ (sig : List BasicType) (i : Nat) (t : BasicType),
      sig.get? i = some t → (t = .tFloat ∨ t = .tDouble) →
      ∀ k : Nat,
        (javaCallingConvention sig).1.get? i ≠ some (RegAssign.one (.intReg k)) ∧
        (javaCallingConvention sig).1.get? i ≠ some (RegAssign.two (.intReg k))) := by
  constructor
  · intro sig i t hget ht hfp hint
    have h := runConv_get cStep sig ⟨0, 0, 0⟩ i t hget
    rw [cCallingConvention]
    simp only
    rw [h]
    rcases ht with h1 | h1 <;> subst h1
    · simp only [cStep, stateAt] at *
      rw [if_neg (by omega), if_pos hint]
      simp
    · simp only [cStep, stateAt] at *
      rw [if_neg (by omega), if_pos hint]
      simp
  · intro sig i t hget ht k
    have h := runConv_get javaStep sig ⟨0, 0, 0⟩ i t hget
    rw [javaCallingConvention]
    simp only
    rw [h]
    rcases ht with h1 | h1 <;> subst h1 <;>
      simp only [javaStep] <;> split <;> simp

/-- Witness for C3: nine floats under the C convention — the ninth float
lands in the first integer argument register. -/
theorem callingConvention_float_fallback_spec_witness :
    (cCallingConvention (List.replicate 9 BasicType.tFloat)).1.get? 8 =
      some (RegAssign.one (.intReg 0)) := by
  have h := callingConvention_float_fallback_spec.1 (List.replicate 9 .tFloat) 8
    .tFloat (by decide) (Or.inl rfl) (by decide) (by decide)
  simpa using h

end CallConv

namespace ObjMove

theorem update_same (f : Nat → Nat) (a v : Nat) : update f a v a = v := by
  simp [update]

theorem update_other (f : Nat → Nat) (a v x : Nat) (h : x ≠ a) : update f a v x = f x := by
  simp [update, h]

/-- Claim C4: the native-call argument shuffle never passes an object
reference by value: whatever `object_move` passes on (register or outgoing
stack slot) is the address of a stack slot holding the reference, and after
the move that slot does hold the reference; when the source reference is null
the passed value is the null address 0 instead.  The side conditions say the
outgoing argument slot is distinct from the handle slot (they live in
different frame areas) and that the handle register is not the scratch `t0`
(it is `t1` or a C argument register). -/
theorem objectMove_indirect_handle_spec (oho op : Nat) (st : MState)
    (src : SrcLoc) (dst : DstLoc)
    (hdisj : ∀ ds, dst = .stack ds →
      st.sp + reg2offset_out op ds ≠ handleSlotAddr oho st src)
    (ht0 : rHandleOf dst ≠ t0reg) :
    (srcOopValue st src = 0 →
      passedValue op (object_move oho op st src dst) dst = 0) ∧
    (srcOopValue st src ≠ 0 →
      passedValue op (object_move oho op st src dst) dst = handleSlotAddr oho st src ∧
      (object_move oho op st src dst).mem (handleSlotAddr oho st src) =
        srcOopValue st src) := by
  cases src with
  | stack slot =>
    cases dst with
    | stack ds =>
      have hd2 : st.fp + reg2offset_in slot ≠ st.sp + reg2offset_out op ds :=
        Ne.symm (hdisj ds rfl)
      have ht1 : t0reg ≠ t1reg := by decide
      constructor
      · intro hv
        simp only [srcOopValue] at hv
        simp only [object_move, passedValue, rHandleOf, handleSlotAddr, update]
        simp [update, srcOopValue, ht1, hv, hd2]
      · intro hv
        simp only [srcOopValue] at hv
        simp only [object_move, passedValue, rHandleOf, handleSlotAddr, update]
        constructor
        · simp [update, srcOopValue, ht1, hv, hd2]
        · simp [update, srcOopValue, ht1, hv, hd2]
    | reg r =>
      simp only [rHandleOf] at ht0
      have ht0s : t0reg ≠ r := Ne.symm ht0
      constructor
      · intro hv
        simp only [srcOopValue] at hv
        simp only [object_move, passedValue, rHandleOf, handleSlotAddr, update]
        simp [update, srcOopValue, ht0s, hv]
      · intro hv
        simp only [srcOopValue] at hv
        simp only [object_move, passedValue, rHandleOf, handleSlotAddr, update]
        constructor
        · simp [update, srcOopValue, ht0s, hv]
        · simp [update, srcOopValue, ht0s, hv]
  | jreg j rid =>
    cases dst with
    | stack ds =>
      have hd2 : st.sp + (j.val * slotsPerWord + oho) * stackSlotSize ≠
          st.sp + reg2offset_out op ds := Ne.symm (hdisj ds rfl)
      constructor
      · intro hv
        simp only [srcOopValue] at hv
        simp only [object_move, passedValue, rHandleOf, handleSlotAddr, update]
        by_cases hr : rid = t1reg
        · subst hr; simp [update, srcOopValue, hv, hd2]
        · simp [update, srcOopValue, hr, hv, hd2]
      · intro hv
        simp only [srcOopValue] at hv
        simp only [object_move, passedValue, rHandleOf, handleSlotAddr, update]
        by_cases hr : rid = t1reg
        · subst hr
          constructor <;> simp [update, srcOopValue, hv, hd2]
        · constructor <;> simp [update, srcOopValue, hr, hv, hd2]
    | reg r =>
      simp only [rHandleOf] at ht0
      constructor
      · intro hv
        simp only [srcOopValue] at hv
        simp only [object_move, passedValue, rHandleOf, handleSlotAddr, update]
        by_cases hr : rid = r
        · subst hr; simp [update, srcOopValue, hv]
        · simp [update, srcOopValue, hr, hv]
      · intro hv
        simp only [srcOopValue] at hv
        simp only [object_move, passedValue, rHandleOf, handleSlotAddr, update]
        by_cases hr : rid = r
        · subst hr
          constructor <;> simp [update, srcOopValue, hv]
        · constructor <;> simp [update, srcOopValue, hr, hv]


/-- Witness for C4: the receiver oop 99 sitting in `j_rarg0` (x10) is moved
to the register argument x11: the generated code stores 99 into the handle
slot at `sp + (0*2+8)*4 = 532` and passes that address. -/
theorem objectMove_indirect_handle_spec_witness :
    passedValue 0
      (object_move 8 0
        ⟨fun r => if r = 10 then 99 else 0, fun _ => 7, 1000, 500⟩
        (SrcLoc.jreg ⟨0, by decide⟩ 10) (DstLoc.reg 11))
      (DstLoc.reg 11) = 532 ∧
    (object_move 8 0
        ⟨fun r => if r = 10 then 99 else 0, fun _ => 7, 1000, 500⟩
        (SrcLoc.jreg ⟨0, by decide⟩ 10) (DstLoc.reg 11)).mem 532 = 99 := by
  have h := (objectMove_indirect_handle_spec 8 0
    ⟨fun r => if r = 10 then 99 else 0, fun _ => 7, 1000, 500⟩
    (SrcLoc.jreg ⟨0, by decide⟩ 10) (DstLoc.reg 11)
    (by intro ds hds; cases hds)
    (by decide)).2 (by decide)
  simpa [handleSlotAddr, srcOopValue, slotsPerWord, stackSlotSize] using h

end ObjMove

namespace Interp

/-- Claim C6: the generated interpreter stack-overflow check compares the
requested additional-locals size against the precomputed page-size-derived
threshold and loads the precise thread-local limit only when the request
exceeds it; when the limit is exceeded it restores the (16-byte-aligned)
caller stack pointer, emits the jump to the StackOverflowError stub as its
final action, and does not fall through. -/
theorem stackOverflowCheck_spec (i : SOIn) :
    (i.locals ≤ (i.pageSize - i.overhead) / stackElementSize →
      stackOverflowCheck i = (SOResult.proceed, [])) ∧
    ((i.pageSize - i.overhead) / stackElementSize < i.locals →
      SOEvent.probeLimit ∈ (stackOverflowCheck i).2) ∧
    (∀ nsp, (stackOverflowCheck i).1 = SOResult.throwSO nsp →
      nsp = alignDown16 i.senderSp ∧
      (stackOverflowCheck i).2 = [SOEvent.probeLimit, SOEvent.throwJump] ∧
      i.sp ≤ i.overhead + i.locals * stackElementSize + i.limit) := by
  refine ⟨?_, ?_, ?_⟩
  · intro h
    simp [stackOverflowCheck, h]
  · intro h
    simp only [stackOverflowCheck]
    rw [if_neg (by omega)]
    split <;> simp
  · intro nsp h
    simp only [stackOverflowCheck] at h ⊢
    by_cases h1 : i.locals ≤ (i.pageSize - i.overhead) / stackElementSize
    · rw [if_pos h1] at h
      simp at h
    · rw [if_neg h1] at h ⊢
      by_cases h2 : i.overhead + i.locals * stackElementSize + i.limit < i.sp
      · rw [if_pos h2] at h
        simp at h
      · rw [if_neg h2] at h ⊢
        simp at h
        simp [h]
        omega

/-- Witness for C6: 1000 extra locals against a 4096-byte page with 96 bytes
of overhead and a spent stack: the precise limit is probed, the frame is
discarded with `sp` restored to the aligned sender SP 32, and the throw stub
is entered. -/
theorem stackOverflowCheck_spec_witness :
    alignDown16 35 = 32 ∧
    (stackOverflowCheck ⟨1000, 0, 35, 0, 4096, 96⟩).2 =
      [SOEvent.probeLimit, SOEvent.throwJump] := by
  have h := (stackOverflowCheck_spec ⟨1000, 0, 35, 0, 4096, 96⟩).2.2
    (alignDown16 35) (by decide)
  exact ⟨by decide, h.2.1⟩

theorem lock_not_in_soMap (l : List SOEvent) :
    IEvent.lockMethod ∉ l.map (fun e =>
      match e with
      | SOEvent.probeLimit => IEvent.probeLimit
      | SOEvent.throwJump => IEvent.jumpThrowSO) := by
  intro h
  rcases List.mem_map.mp h with ⟨e, _, he⟩
  cases e <;> simp at he

/-- Claim C5: in the generated normal method entry, the monitor-lock
acquisition happens strictly after both the stack-overflow check and the
invocation-counter overflow check on every execution path: whenever
`lock_method` appears in the trace, both checks appear before it, and when
the stack-overflow check discards the frame the lock never runs at all. -/
theorem normalEntry_lock_after_checks (i : NEIn) (hinc : i.incCounter = true) :
    (IEvent.lockMethod ∈ normalEntryTrace i →
      ∃ l1 l2, normalEntryTrace i = l1 ++ IEvent.lockMethod :: l2 ∧
        IEvent.stackCheck ∈ l1 ∧ IEvent.counterCheck ∈ l1) ∧
    (∀ nsp, (stackOverflowCheck i.so).1 = SOResult.throwSO nsp →
      IEvent.lockMethod ∉ normalEntryTrace i) := by
  have hM := lock_not_in_soMap (stackOverflowCheck i.so).2
  constructor
  · intro hmem
    rw [normalEntryTrace] at hmem ⊢
    rcases hso : (stackOverflowCheck i.so).1 with _ | nsp
    · rw [hso] at hmem
      simp only [hinc, if_true] at hmem ⊢
      by_cases hsync : i.synchronized = true
      · refine ⟨IEvent.loadSizes ::
          IEvent.stackCheck :: ((stackOverflowCheck i.so).2.map (fun e =>
            match e with
            | SOEvent.probeLimit => IEvent.probeLimit
            | SOEvent.throwJump => IEvent.jumpThrowSO) ++
          ([IEvent.allocLocals, IEvent.fixedFrame, IEvent.setDNU] ++
            (IEvent.counterCheck ::
              ((if i.profileInterp && i.profileMethod then [IEvent.profileCall] else []) ++
                (if i.counterOverflow then [IEvent.counterOverflowCall] else []))) ++
            [IEvent.bangShadow, IEvent.clearDNU])),
          [IEvent.notifyEntry, IEvent.dispatch], ?_, ?_, ?_⟩
        · simp [hsync]
        · simp
        · simp
      · exfalso
        simp only [Bool.not_eq_true] at hsync
        simp only [hsync] at hmem
        cases hpm : (i.profileInterp && i.profileMethod) <;>
          cases hco : i.counterOverflow <;>
            simp [hpm, hco, hM] at hmem
    · rw [hso] at hmem
      exfalso
      simp [hM] at hmem
  · intro nsp hso
    rw [normalEntryTrace, hso]
    intro hmem
    simp [hM] at hmem

/-- Witness for C5: a synchronized method whose checks pass and whose counter
does not overflow — the trace contains the two checks before the lock. -/
theorem normalEntry_lock_after_checks_witness :
    IEvent.lockMethod ∈
      normalEntryTrace ⟨⟨0, 100, 64, 0, 4096, 96⟩, true, false, false, false, true⟩ ∧
    ∃ l1 l2,
      normalEntryTrace ⟨⟨0, 100, 64, 0, 4096, 96⟩, true, false, false, false, true⟩ =
        l1 ++ IEvent.lockMethod :: l2 ∧
      IEvent.stackCheck ∈ l1 ∧ IEvent.counterCheck ∈ l1 := by
  have hm : IEvent.lockMethod ∈
      normalEntryTrace ⟨⟨0, 100, 64, 0, 4096, 96⟩, true, false, false, false, true⟩ := by
    decide
  exact ⟨hm,
    (normalEntry_lock_after_checks
      ⟨⟨0, 100, 64, 0, 4096, 96⟩, true, false, false, false, true⟩ rfl).1 hm⟩

end Interp

namespace G1Post

theorem xor_shiftRight_eq_zero_iff (a b k : Nat) :
    (a ^^^ b) >>> k = 0 ↔ a >>> k = b >>> k := by
  constructor
  · intro h
    apply Nat.eq_of_testBit_eq
    intro i
    have hz := congrArg (fun x => Nat.testBit x i) h
    simp only [Nat.testBit_shiftRight, Nat.testBit_xor, Nat.zero_testBit] at hz
    simp only [Nat.testBit_shiftRight]
    cases ha : a.testBit (k + i) <;> cases hb : b.testBit (k + i) <;> simp_all
  · intro h
    apply Nat.eq_of_testBit_eq
    intro i
    have hb := congrArg (fun x => Nat.testBit x i) h
    simp only [Nat.testBit_shiftRight] at hb
    simp only [Nat.testBit_shiftRight, Nat.testBit_xor, Nat.zero_testBit, hb]
    simp

/-- Claim C8: the emitted post-write barrier is a no-op — state unchanged, no
card read, no card mark, no log append, no runtime call — whenever the store
address and the stored value lie in the same heap region (the XOR-and-shift
test, equivalent to equality of the two addresses shifted right by the
region-size log) or the stored value is null; conversely any run that reads
or dirties a card or appends to the dirty-card log is a region-crossing
non-null store. -/
theorem g1PostBarrier_filter_spec (logHR cardShift youngVal storeAddr newVal : Nat)
    (st : G1State) :
    (storeAddr >>> logHR = newVal >>> logHR →
      g1_write_barrier_post logHR cardShift youngVal storeAddr newVal st = (st, [])) ∧
    (newVal = 0 →
      g1_write_barrier_post logHR cardShift youngVal storeAddr newVal st = (st, [])) ∧
    ((g1_write_barrier_post logHR cardShift youngVal storeAddr newVal st).2 ≠ [] →
      storeAddr >>> logHR ≠ newVal >>> logHR ∧ newVal ≠ 0) := by
  refine ⟨?_, ?_, ?_⟩
  · intro h
    rw [g1_write_barrier_post,
      if_pos ((xor_shiftRight_eq_zero_iff storeAddr newVal logHR).mpr h)]
  · intro h
    rw [g1_write_barrier_post]
    split <;> simp [h]
  · intro h
    rw [g1_write_barrier_post] at h
    by_cases h1 : (storeAddr ^^^ newVal) >>> logHR = 0
    · rw [if_pos h1] at h
      simp at h
    · rw [if_neg h1] at h
      by_cases h2 : newVal = 0
      · rw [if_pos h2] at h
        simp at h
      · exact ⟨fun hc =>
          h1 ((xor_shiftRight_eq_zero_iff storeAddr newVal logHR).mpr hc), h2⟩

/-- Witness for C8: a same-region store (addresses 0x100000 and 0x100008
with a 1 MiB region) leaves the state untouched and emits nothing. -/
theorem g1PostBarrier_filter_spec_witness :
    g1_write_barrier_post 20 9 1 1048576 1048584 ⟨fun _ => 7, 64, 4096, 0⟩ =
      (⟨fun _ => 7, 64, 4096, 0⟩, []) :=
  (g1PostBarrier_filter_spec 20 9 1 1048576 1048584 ⟨fun _ => 7, 64, 4096, 0⟩).1
    (by decide)

end G1Post

namespace Patching

theorem observations_single (s : Store) (m : Nat → Nat) (a : Nat) :
    observations [s] m a = [m a, applyStore m s a] := by
  rw [observations]
  rfl

/-- Claim C9: both destination-patching idioms rewrite their mutable
destination with a single machine-word store — the 32-bit `jal` rewrite at
the call instruction itself and the trampoline's 64-bit data word at
`data_offset` — so under word-atomic memory a concurrent reader's load of
the patched word observes either the complete old contents or the complete
new contents, never a torn value. -/
theorem setDestination_single_word_patch (inst dest stub tdest : Nat)
    (m : Nat → Nat) :
    (setDestinationStores inst dest =
      [⟨inst, 4, encodeJal (offsetBits inst dest)⟩]) ∧
    (trampolineSetDestinationStores stub tdest =
      [⟨stub + trampolineDataOffset, 8, tdest⟩]) ∧
    (∀ a v, v ∈ observations (setDestinationStores inst dest) m a →
      v = m a ∨ v = applyStores (setDestinationStores inst dest) m a) ∧
    (∀ a v, v ∈ observations (trampolineSetDestinationStores stub tdest) m a →
      v = m a ∨ v = applyStores (trampolineSetDestinationStores stub tdest) m a) := by
  refine ⟨rfl, rfl, ?_, ?_⟩
  · intro a v hv
    rw [setDestinationStores] at hv ⊢
    rw [observations_single] at hv
    rcases List.mem_cons.mp hv with h | h
    · exact Or.inl h
    · right
      simp only [List.mem_cons, List.not_mem_nil, or_false] at h
      rw [h]
      rfl
  · intro a v hv
    rw [trampolineSetDestinationStores] at hv ⊢
    rw [observations_single] at hv
    rcases List.mem_cons.mp hv with h | h
    · exact Or.inl h
    · right
      simp only [List.mem_cons, List.not_mem_nil, or_false] at h
      rw [h]
      rfl

/-- Witness for C9 at a concrete call site: patching the `jal` at address
4096 to destination 4100 performs exactly one 4-byte store of the rebuilt
instruction word at 4096, and a reader of that word sees the old or the new
encoding only. -/
theorem setDestination_single_word_patch_witness :
    (setDestinationStores 4096 4100 = [⟨4096, 4, encodeJal 4⟩]) ∧
    (∀ v, v ∈ observations (setDestinationStores 4096 4100) (fun _ => 19) 4096 →
      v = 19 ∨ v = encodeJal 4) := by
  have h := setDestination_single_word_patch 4096 4100 0 0 (fun _ => 19)
  constructor
  · rw [h.1]
    have : offsetBits 4096 4100 = 4 := by decide
    rw [this]
  · intro v hv
    have h4 : offsetBits 4096 4100 = 4 := by decide
    have := h.2.2.1 4096 v hv
    rcases this with h1 | h1
    · exact Or.inl h1
    · right
      rw [h1]
      rw [setDestinationStores, h4]
      simp [applyStores, applyStore, ObjMove.update]

end Patching
